import Mathlib

/-!
Verification of the maximal-clique enumeration core and feature statistics of
the co-location mining engine (`maximal_clique_hashmap.cpp`, `utils.cpp`).

Shallow embedding conventions:
* A spatial instance is identified by a `Nat` (the spec requires an opaque,
  totally ordered, layout-independent identity; the C++ code uses
  `const SpatialInstance*` pointers ordered by address).  The feature type of
  each instance is given by a typing function `ty : Nat → Nat`.
* `FeatureType` is `Nat` (totally ordered category label).
* `std::unordered_map`/`std::map`/`std::set` contents are modelled as
  association lists / sorted lists; maps built by the engine are kept in
  canonical (key-sorted) form so that structural equality coincides with
  content equality.
* `double` is modelled as `ℝ`.
* Merge-style loops over two lists and `while` loops are written with an
  explicit structural fuel so that every definition reduces in the kernel;
  each fuel bound is chosen so that it can never be exhausted (each step
  consumes at least one list element, as noted at each definition).
-/

/-- Feature type label (totally ordered). -/
abbrev FeatureType := Nat

/-- A colocation key: sequence of feature types (C++ `std::vector<FeatureType>`). -/
abbrev Colocation := List Nat

/-- A sorted vector of instance identities (C++ `CliqueVec = std::vector<Node>`). -/
abbrev CliqueVec := List Nat

/-- Adjacency map content: instance ↦ sorted neighbour list
(C++ `AdjMap = std::unordered_map<Node, CliqueVec>`). -/
abbrev AdjMap := List (Nat × List Nat)

/-- Lookup in the adjacency map (C++ `adj.find(u)`). -/
def AdjMap.find? : AdjMap → Nat → Option (List Nat)
  | [], _ => none
  | (k, v) :: rest, u => if k = u then some v else AdjMap.find? rest u

/-- Insert-or-overwrite into the adjacency map (C++ `adj[u] = ns`). -/
def adjSet : AdjMap → Nat → List Nat → AdjMap
  | [], u, ns => [(u, ns)]
  | (k, v) :: rest, u, ns =>
    if k = u then (u, ns) :: rest else (k, v) :: adjSet rest u ns

/-- C++ `count_intersection` (`maximal_clique_hashmap.cpp:29`): merge-count of
common elements of two sorted vectors.  Fuel `|A|+|B|` cannot run out because
every step drops at least one element of `A ++ B`. -/
def countInterFuel : Nat → List Nat → List Nat → Nat
  | _, [], _ => 0
  | _, _ :: _, [] => 0
  | 0, _, _ => 0
  | fuel + 1, a :: as, b :: bs =>
    if a < b then countInterFuel fuel as (b :: bs)
    else if b < a then countInterFuel fuel (a :: as) bs
    else countInterFuel fuel as bs + 1

/-- `count_intersection(A, B)`. -/
def count_intersection (A B : List Nat) : Nat :=
  countInterFuel (A.length + B.length) A B

/-- C++ `set_difference_helper` (`std::set_difference` over sorted vectors):
when `B` runs out the rest of `A` is copied.  Fuel as in `countInterFuel`. -/
def setDiffFuel : Nat → List Nat → List Nat → List Nat
  | _, [], _ => []
  | _, as, [] => as
  | 0, as, _ => as
  | fuel + 1, a :: as, b :: bs =>
    if a < b then a :: setDiffFuel fuel as (b :: bs)
    else if b < a then setDiffFuel fuel (a :: as) bs
    else setDiffFuel fuel as bs

/-- `set_difference_helper(A, B)` = `A \ B`. -/
def set_difference_helper (A B : List Nat) : List Nat :=
  setDiffFuel (A.length + B.length) A B

/-- C++ `set_intersection_helper` (`std::set_intersection` over sorted
vectors).  Fuel as in `countInterFuel`. -/
def setInterFuel : Nat → List Nat → List Nat → List Nat
  | _, [], _ => []
  | _, _ :: _, [] => []
  | 0, _, _ => []
  | fuel + 1, a :: as, b :: bs =>
    if a < b then setInterFuel fuel as (b :: bs)
    else if b < a then setInterFuel fuel (a :: as) bs
    else a :: setInterFuel fuel as bs

/-- `set_intersection_helper(A, B)` = `A ∩ B`. -/
def set_intersection_helper (A B : List Nat) : List Nat :=
  setInterFuel (A.length + B.length) A B

/-- Insert into a sorted vector at `std::lower_bound` position
(the backtracking step `X.insert(itX, v)`). -/
def insertSorted (v : Nat) : List Nat → List Nat
  | [] => [v]
  | x :: xs => if x < v then x :: insertSorted v xs else v :: x :: xs

/-- Erase `v` from a sorted vector: `std::lower_bound` then conditional
`erase` (the backtracking step removing `v` from `P`). -/
def eraseSorted (v : Nat) : List Nat → List Nat
  | [] => []
  | x :: xs => if x < v then x :: eraseSorted v xs else if x = v then xs else x :: xs

/-- Ascending insertion sort of a `Nat` vector (`std::sort` on instance
identities; any comparison sort yields the same sorted permutation). -/
def sortNatList (l : List Nat) : List Nat :=
  l.foldr insertSorted []

-- ---------------------------------------------------------------------------
-- ResultMap: std::map<Colocation, std::unordered_map<FeatureType, std::set<Node>>>
-- modelled in canonical form: outer list sorted by lexicographic key order,
-- inner association list sorted by feature type, instance sets sorted & nodup.
-- ---------------------------------------------------------------------------

/-- Lexicographic `operator<` on `std::vector<FeatureType>` (the `std::map`
key comparator for `Colocation`). -/
def colLt : List Nat → List Nat → Bool
  | _, [] => false
  | [], _ :: _ => true
  | a :: as, b :: bs =>
    if a < b then true else if b < a then false else colLt as bs

/-- Inner map content: feature type ↦ sorted set of participating instances. -/
abbrev InnerMap := List (Nat × List Nat)

/-- The result map: colocation key ↦ inner map. -/
abbrev ResultMap := List (Colocation × InnerMap)

/-- `std::set<Node>::insert`: sorted, duplicate-free insert. -/
def setInsert (v : Nat) : List Nat → List Nat
  | [] => [v]
  | x :: xs =>
    if x < v then x :: setInsert v xs
    else if x = v then x :: xs
    else v :: x :: xs

/-- `innerMap[t].insert(i)`: add instance `i` to the set stored under feature
type `t` (creating the entry if absent), keeping the map key-sorted. -/
def innerAdd : InnerMap → Nat → Nat → InnerMap
  | [], t, i => [(t, [i])]
  | (k, s) :: rest, t, i =>
    if t < k then (t, [i]) :: (k, s) :: rest
    else if k < t then (k, s) :: innerAdd rest t i
    else (t, setInsert i s) :: rest

/-- Lookup of a colocation key in the result map (`hashMap.find(key)`). -/
def rmLookup : ResultMap → Colocation → Option InnerMap
  | [], _ => none
  | (k, m) :: rest, c => if k = c then some m else rmLookup rest c

/-- Insert-or-replace an entry of the result map, keeping keys sorted by the
`std::map` comparator (`hashMap[key] = inner`). -/
def rmSet : ResultMap → Colocation → InnerMap → ResultMap
  | [], c, m => [(c, m)]
  | (k, im) :: rest, c, m =>
    if colLt c k then (c, m) :: (k, im) :: rest
    else if colLt k c then (k, im) :: rmSet rest c m
    else (c, m) :: rest

/-- C++ `report_clique` (`maximal_clique_hashmap.cpp:58`): discard cliques of
size < 2; otherwise build the sorted (non-deduplicated) feature-type key and
insert every participant into the set stored under its own feature type. -/
def report_clique (ty : Nat → Nat) (R : CliqueVec) (h : ResultMap) : ResultMap :=
  if R.length < 2 then h
  else
    let colocationKey := sortNatList (R.map ty)
    let innerMap := (rmLookup h colocationKey).getD []
    let innerMap := R.foldl (fun m i => innerAdd m (ty i) i) innerMap
    rmSet h colocationKey innerMap

-- ---------------------------------------------------------------------------
-- Algorithm 1: BK Pivot (runBKPivot, maximal_clique_hashmap.cpp:75)
-- ---------------------------------------------------------------------------

/-- One pivot-scan step (C++ `check_pivot`): candidates absent from the
adjacency map are skipped; the first maximiser of `|P ∩ N(u)|` wins. -/
def checkPivot (adj : AdjMap) (P : List Nat) (st : Option Nat × Int) (cand : Nat) :
    Option Nat × Int :=
  match AdjMap.find? adj cand with
  | some ns =>
    let interSize : Int := (count_intersection P ns : Nat)
    if st.2 < interSize then (some cand, interSize) else st
  | none => st

/-- C++ `runBKPivot` with structural fuel.  Every recursive call strictly
decreases `|P|` (each candidate `v` was scanned during pivot selection, so
`|P ∩ N(v)| ≤ max_inter < |P|` whenever the candidate loop is entered), hence
fuel `|P| + 1` never runs out. -/
def bkPivot (ty : Nat → Nat) (adj : AdjMap) :
    Nat → CliqueVec → CliqueVec → CliqueVec → ResultMap → ResultMap
  | 0, _, _, _, h => h
  | fuel + 1, R, P, X, h =>
    if P = [] ∧ X = [] then report_clique ty R h
    else if P = [] then h
    else
      -- 1. Select pivot u in P ∪ X maximizing |P ∩ N(u)|
      let scan := (P ++ X).foldl (checkPivot adj P) (none, -1)
      -- 2. Candidates = P \ N(pivot)
      let candidates :=
        match scan.1 with
        | some u =>
          match AdjMap.find? adj u with
          | some ns => set_difference_helper P ns
          | none => P
        | none => P
      -- 3. Recurse; backtracking moves v from the live P into the live X
      let step := fun (st : List Nat × List Nat × ResultMap) (v : Nat) =>
        let neighbors_v := (AdjMap.find? adj v).getD []
        let h' := bkPivot ty adj fuel (R ++ [v])
          (set_intersection_helper st.1 neighbors_v)
          (set_intersection_helper st.2.1 neighbors_v) st.2.2
        (eraseSorted v st.1, insertSorted v st.2.1, h')
      (candidates.foldl step (P, X, h)).2.2

/-- `runBKPivot(R, P, X, adj, hashMap)`. -/
def runBKPivot (ty : Nat → Nat) (adj : AdjMap) (R P X : CliqueVec) (h : ResultMap) :
    ResultMap :=
  bkPivot ty adj (P.length + 1) R P X h

-- ---------------------------------------------------------------------------
-- Algorithm 2: BK RCD (runBKRcd, maximal_clique_hashmap.cpp:148)
-- ---------------------------------------------------------------------------

/-- One step of the RCD degree scan over `u ∈ P`: flips `isClique` off when
`deg_in_P < |P| - 1`, and keeps the first vertex of minimum internal degree
(`u_worst`).  State: `(isClique, u_worst, min_degree_in_P)`. -/
def rcdScanStep (adj : AdjMap) (P : List Nat) (st : Bool × Option Nat × Int) (u : Nat) :
    Bool × Option Nat × Int :=
  let degInP : Int := (count_intersection P ((AdjMap.find? adj u).getD []) : Nat)
  let isClique := if degInP < (P.length : Int) - 1 then false else st.1
  if degInP < st.2.2 then (isClique, some u, degInP) else (isClique, st.2.1, st.2.2)

/-- C++ `runBKRcd` with structural fuel.  The `while (true)` loop is the tail
call on `(P \ u_worst, X ∪ u_worst)` (the function re-enters below the
initial emptiness check exactly as the loop does, because the tail call only
happens with nonempty `P`).  Both the inner recursive call (whose `P` has
length `min_degree_in_P < |P| - 1`) and the tail call (length `|P| - 1`)
strictly decrease `|P|`, so fuel `|P| + 1` never runs out. -/
def bkRcd (ty : Nat → Nat) (adj : AdjMap) :
    Nat → CliqueVec → CliqueVec → CliqueVec → ResultMap → ResultMap
  | 0, _, _, _, h => h
  | fuel + 1, R, P, X, h =>
    if P = [] ∧ X = [] then report_clique ty R h
    else
      let scan := P.foldl (rcdScanStep adj P) (true, none, (2147483647 : Int))
      if scan.1 then
        -- CASE 1: P is a clique; check maximality against X.
        -- NOTE the C++ guard `if (!P.empty())`: the X-scan is skipped when P
        -- is empty, so isMaximal stays true in that case.
        let isMaximal :=
          if P = [] then true
          else X.all fun x =>
            count_intersection P ((AdjMap.find? adj x).getD []) != P.length
        if isMaximal then report_clique ty (R ++ P) h else h
      else
        -- CASE 2: peel u_worst
        match scan.2.1 with
        | none => h   -- unreachable: ¬isClique forces a scanned vertex below INT_MAX
        | some u =>
          let neighbors_u := (AdjMap.find? adj u).getD []
          let h1 := bkRcd ty adj fuel (R ++ [u])
            (set_intersection_helper P neighbors_u)
            (set_intersection_helper X neighbors_u) h
          let P' := eraseSorted u P
          let X' := insertSorted u X
          if P' = [] then h1 else bkRcd ty adj fuel R P' X' h1

/-- `runBKRcd(R, P, X, adj, hashMap)`. -/
def runBKRcd (ty : Nat → Nat) (adj : AdjMap) (R P X : CliqueVec) (h : ResultMap) :
    ResultMap :=
  bkRcd ty adj (P.length + 1) R P X h

-- ---------------------------------------------------------------------------
-- Structural analysis and degeneracy ordering
-- ---------------------------------------------------------------------------

/-- C++ `analyzeStructure`: `(s, k)` where `s` counts vertices of `P` whose
internal degree is `|P| - 1` (kernel) and `k` the rest (shell). -/
def analyzeStructure (adj : AdjMap) (P : List Nat) : Nat × Nat :=
  P.foldl
    (fun (sk : Nat × Nat) u =>
      let degInP := count_intersection P ((AdjMap.find? adj u).getD [])
      if degInP = P.length - 1 then (sk.1 + 1, sk.2) else (sk.1, sk.2 + 1))
    (0, 0)

/-- Strict order on `(degree, node)` pairs: the `std::set<std::pair<int, Node>>`
comparator used by the degeneracy ordering. -/
def degPairLt (p q : Int × Nat) : Bool :=
  if p.1 < q.1 then true else if q.1 < p.1 then false else decide (p.2 < q.2)

/-- Sorted insert into the `(degree, node)` set (inserted pairs are never
already present: the set holds exactly one pair per unremoved node). -/
def insertPair (p : Int × Nat) : List (Int × Nat) → List (Int × Nat)
  | [] => [p]
  | q :: qs => if degPairLt q p then q :: insertPair p qs else p :: q :: qs

/-- Erase an exact `(degree, node)` pair (C++ `sortedNodes.erase(searchPair)`). -/
def erasePair (p : Int × Nat) : List (Int × Nat) → List (Int × Nat)
  | [] => []
  | q :: qs => if q = p then qs else q :: erasePair p qs

/-- Lookup in the residual-degree map, defaulting to 0 for an absent key
(C++ `degrees[v]` with `operator[]` default construction). -/
def degLookup : List (Nat × Int) → Nat → Int
  | [], _ => 0
  | (k, d) :: rest, u => if k = u then d else degLookup rest u

/-- Overwrite-or-append in the residual-degree map (`degrees[v] = d`). -/
def degSet : List (Nat × Int) → Nat → Int → List (Nat × Int)
  | [], u, d => [(u, d)]
  | (k, x) :: rest, u, d =>
    if k = u then (u, d) :: rest else (k, x) :: degSet rest u d

/-- One neighbour update of the degeneracy loop: skip removed nodes; when the
pair `(degrees[v], v)` is still in the set, decrement its degree. -/
def degUpdate (removed : List Nat) (st : List (Int × Nat) × List (Nat × Int)) (v : Nat) :
    List (Int × Nat) × List (Nat × Int) :=
  if removed.contains v then st
  else
    let oldDeg := degLookup st.2 v
    if st.1.contains (oldDeg, v) then
      (insertPair (oldDeg - 1, v) (erasePair (oldDeg, v) st.1), degSet st.2 v (oldDeg - 1))
    else st

/-- The core-decomposition loop (`while (!sortedNodes.empty())`): repeatedly
extract the minimum `(degree, node)` pair, append the node to the ordering and
decrement its still-present neighbours.  Each iteration removes exactly one
node from the set (neighbour updates are erase+insert pairs), so fuel equal to
the initial set size never runs out. -/
def degenLoop (adj : AdjMap) :
    Nat → List (Int × Nat) → List (Nat × Int) → List Nat → List Nat → List Nat
  | 0, _, _, _, ordering => ordering
  | fuel + 1, sortedNodes, degrees, removed, ordering =>
    match sortedNodes with
    | [] => ordering
    | (_, u) :: rest =>
      let ordering' := ordering ++ [u]
      let removed' := removed ++ [u]
      let st := ((AdjMap.find? adj u).getD []).foldl (degUpdate removed') (rest, degrees)
      degenLoop adj fuel st.1 st.2 removed' ordering'

/-- C++ `getDegeneracyOrdering` (`maximal_clique_hashmap.cpp:290`). -/
def getDegeneracyOrdering (adj : AdjMap) : List Nat :=
  let degrees := adj.map fun e => (e.1, (e.2.length : Int))
  let sortedNodes := adj.foldl (fun s e => insertPair ((e.2.length : Int), e.1) s) []
  degenLoop adj sortedNodes.length sortedNodes degrees [] []

-- ---------------------------------------------------------------------------
-- Hybrid driver: MaximalCliqueHashmap::executeBK (maximal_clique_hashmap.cpp:347)
-- ---------------------------------------------------------------------------

/-- Position of `x` in the ordering (`orderIndex[x]`); absent keys default to
0, matching `std::unordered_map::operator[]` default construction. -/
def posOfAux : List Nat → Nat → Nat → Nat
  | [], _, _ => 0
  | y :: ys, x, i => if y = x then i else posOfAux ys x (i + 1)

/-- `orderIndex` lookup. -/
def posOf (ordering : List Nat) (x : Nat) : Nat :=
  posOfAux ordering x 0

/-- The per-vertex subproblem and hybrid dispatch of `executeBK`.  The C++
dispatch condition is `s >= 2.8 * k - 11.0` on `double`s; `10*s + 110 ≥ 28*k`
is the same comparison carried out exactly (checked to agree with the
rounded `double` computation throughout the `int` range that can arise). -/
def executeBKStep (ty : Nat → Nat) (adj : AdjMap) (ordering : List Nat)
    (h : ResultMap) (iv : Nat × Nat) : ResultMap :=
  let i := iv.1
  let v := iv.2
  match AdjMap.find? adj v with
  | none => h
  | some neighbors =>
    let P := sortNatList (neighbors.filter fun nb => decide (i < posOf ordering nb))
    let X := sortNatList (neighbors.filter fun nb => !decide (i < posOf ordering nb))
    let info := analyzeStructure adj P
    let R_init := [v]
    if 10 * info.1 + 110 ≥ 28 * info.2 then runBKRcd ty adj R_init P X h
    else runBKPivot ty adj R_init P X h

/-- C++ `MaximalCliqueHashmap::executeBK`: build the adjacency map (sorting
each neighbour list), compute the degeneracy ordering, and run the dispatched
enumerator on every per-vertex subproblem in order. -/
def executeBK (ty : Nat → Nat) (neighborSets : List (Nat × List Nat)) : ResultMap :=
  let adj := neighborSets.foldl (fun a e => adjSet a e.1 (sortNatList e.2)) []
  let ordering := getDegeneracyOrdering adj
  ordering.enum.foldl (executeBKStep ty adj ordering) []

/-- Modelled from the spec: the plain-pivot baseline driver of §4.7 ("run
PivotEnumerator exactly once over the whole graph with R = ∅, P = all vertices
(sorted), X = ∅").  This top-level mode is described in the spec's surface
area but has no implementation under `src/`. -/
def runBKPivotDriver (ty : Nat → Nat) (neighborSets : List (Nat × List Nat)) : ResultMap :=
  let adj := neighborSets.foldl (fun a e => adjSet a e.1 (sortNatList e.2)) []
  runBKPivot ty adj [] (sortNatList (adj.map Prod.fst)) [] []

/-- C++ `MaximalCliqueHashmap::extractInitialCandidates`: push every key of
the result map into the candidate priority queue; the queue's content is the
list of pushed keys (its pop order is fixed by the externally owned
`ColocationPriorityComp`). -/
def extractInitialCandidates (h : ResultMap) : List Colocation :=
  h.map Prod.fst

-- ---------------------------------------------------------------------------
-- Feature statistics (utils.cpp)
-- ---------------------------------------------------------------------------

/-- Ascending insertion into a sorted list of `Int` values. -/
def insertSortedInt (v : Int) : List Int → List Int
  | [] => [v]
  | x :: xs => if x < v then x :: insertSortedInt v xs else v :: x :: xs

/-- Ascending sort of the frequency vector (`std::sort`; the C++ code sorts
the values after casting to `double`, which yields the same ordering since
the cast is monotone). -/
def sortIntList (l : List Int) : List Int :=
  l.foldr insertSortedInt []

/-- The double loop of `calculateDispersion` (`utils.cpp:62`): sum of squared
pairwise differences `(l_j - l_i)^2` over all `i < j`. -/
noncomputable def sumSqDiff : List ℝ → ℝ
  | [] => 0
  | a :: rest => (rest.map fun b => (b - a) * (b - a)).sum + sumSqDiff rest

/-- C++ `calculateDispersion` (`utils.cpp:32`): 0 for at most one distinct
feature type, else the log-scale standard deviation of pairwise log-ratios.
The input models the `std::map<FeatureType, int>` as its association list. -/
noncomputable def calculateDispersion (featureCount : List (Nat × Int)) : ℝ :=
  if featureCount = [] then 0
  else if featureCount.length = 1 then 0
  else
    let frequencies := sortIntList (featureCount.map fun p => p.2)
    let logFrequencies := frequencies.map fun f : Int => Real.log (f : ℝ)
    let m : ℝ := (logFrequencies.length : ℝ)
    Real.sqrt (2 / (m * (m - 1)) * sumSqDiff logFrequencies)

/-- Lookup in the feature-count map (`featureCounts.find(f)` / `.at(f)`). -/
def lookupFC : List (Nat × Int) → Nat → Option Int
  | [], _ => none
  | (k, v) :: rest, f => if k = f then some v else lookupFC rest f

/-- One step of the `minCount` fold of `calcRareIntensity` (`utils.cpp:93`):
`-1` is the "unset" sentinel (`if (minCount == -1 || count < minCount)`). -/
def minStep (fc : List (Nat × Int)) (acc : Int) (f : Nat) : Int :=
  match lookupFC fc f with
  | some count => if acc = -1 ∨ count < acc then count else acc
  | none => acc

/-- The computed `minCount` of `calcRareIntensity`. -/
def minCountOf (fc : List (Nat × Int)) (c : Colocation) : Int :=
  c.foldl (minStep fc) (-1)

/-- `intensityMap[f] = ri`: overwrite-or-insert into the rare-intensity map,
kept in canonical key-sorted form (content of the `std::unordered_map`). -/
noncomputable def riInsert : List (Nat × ℝ) → Nat → ℝ → List (Nat × ℝ)
  | [], f, v => [(f, v)]
  | (k, w) :: rest, f, v =>
    if f < k then (f, v) :: (k, w) :: rest
    else if k < f then (k, w) :: riInsert rest f v
    else (f, v) :: rest

/-- Lookup in the rare-intensity map. -/
noncomputable def lookupRI : List (Nat × ℝ) → Nat → Option ℝ
  | [], _ => none
  | (k, v) :: rest, f => if k = f then some v else lookupRI rest f

/-- One step of the RI fold (`utils.cpp:110`): features absent from the count
map or with nonpositive count are skipped, others get
`exp(−(ln count − logMin)² / sigmaSq2)`. -/
noncomputable def riStep (fc : List (Nat × Int)) (logMin sigmaSq2 : ℝ)
    (m : List (Nat × ℝ)) (f : Nat) : List (Nat × ℝ) :=
  match lookupFC fc f with
  | some count =>
    if 0 < count then
      let deltaLog := Real.log (count : ℝ) - logMin
      riInsert m f (Real.exp (-(deltaLog * deltaLog) / sigmaSq2))
    else m
  | none => m

/-- C++ `calcRareIntensity` (`utils.cpp:81`). -/
noncomputable def calcRareIntensity (c : Colocation) (fc : List (Nat × Int)) (delta : ℝ) :
    List (Nat × ℝ) :=
  if c = [] then []
  else
    let minCount := minCountOf fc c
    if minCount ≤ 0 then []
    else
      let sigmaSq2 := 2 * delta * delta
      let sigmaSq2 := if sigmaSq2 = 0 then (1e-9 : ℝ) else sigmaSq2
      let logMin := Real.log (minCount : ℝ)
      c.foldl (riStep fc logMin sigmaSq2) []

-- ---------------------------------------------------------------------------
-- Concrete inputs and decidable clique predicates used as evidence
-- ---------------------------------------------------------------------------

/-- Identity typing: every instance its own feature type (so a colocation key
determines the participating instances uniquely). -/
def tyid : Nat → Nat := fun n => n

/-- A symmetric, irreflexive, duplicate-free neighbour-set input on vertices
1..5 — edges 1-2, 1-4, 1-5, 2-4, 3-4, 3-5; its maximal cliques are
{1,2,4}, {1,5}, {3,4}, {3,5}. -/
def ex5 : List (Nat × List Nat) :=
  [(1, [2, 4, 5]), (2, [1, 4]), (3, [4, 5]), (4, [1, 2, 3]), (5, [1, 3])]

/-- The adjacency map `executeBK` builds from `ex5` (lists already sorted). -/
def ex5adj : AdjMap :=
  [(1, [2, 4, 5]), (2, [1, 4]), (3, [4, 5]), (4, [1, 2, 3]), (5, [1, 3])]

/-- The input is a simple undirected graph: duplicate-free, self-loop-free
neighbour lists related symmetrically (`u ∈ N(v) ⟺ v ∈ N(u)`). -/
def symmetricGraphB (adj : AdjMap) : Bool :=
  adj.all fun e =>
    e.2.Nodup && !e.2.contains e.1 &&
      e.2.all fun n => ((AdjMap.find? adj n).getD []).contains e.1

/-- `u` and `v` are mutually recorded neighbours in `adj`. -/
def adjacentB (adj : AdjMap) (u v : Nat) : Bool :=
  ((AdjMap.find? adj u).getD []).contains v && ((AdjMap.find? adj v).getD []).contains u

/-- Decidable pairwise-adjacency check. -/
def isCliqueB (adj : AdjMap) : List Nat → Bool
  | [] => true
  | x :: xs => (xs.all fun y => adjacentB adj x y) && isCliqueB adj xs

/-- `C` is a maximal clique among the vertices `V`: a clique that no vertex
of `V` outside `C` extends. -/
def isMaxCliqueB (adj : AdjMap) (V C : List Nat) : Bool :=
  isCliqueB adj C && V.all fun w => C.contains w || !isCliqueB adj (C ++ [w])

-- ---------------------------------------------------------------------------
-- C1 / C2 / C3: evidence that the RCD empty-P branch breaks completeness
-- ---------------------------------------------------------------------------

/-- C1: the claim states that for every symmetric neighbor-set input the
ResultMap of `executeBK` holds a key `K` with instance `i` under type `t`
iff some maximal clique of size ≥ 2 has sorted type sequence `K`, contains
`i`, and types `i` as `t`.  This fails on `ex5`: the ResultMap contains the
key `[1,4]` with instances 1 and 4, yet no maximal clique of `ex5` (scanning
all subsets of the vertex set; with the identity typing a clique with type
sequence `[1,4]` could only be `{1,4}`) has that type sequence — `{1,4}` is
contained in the larger clique `{1,2,4}`.  The culprit is the `if
(!P.empty())` guard in `runBKRcd`, which skips the X-maximality check when
`P` is empty. -/
theorem executeBK_reports_nonmaximal_clique :
    ex5.foldl (fun a e => adjSet a e.1 (sortNatList e.2)) [] = ex5adj ∧
    symmetricGraphB ex5adj = true ∧
    rmLookup (executeBK tyid ex5) [1, 4] = some [(1, [1]), (4, [4])] ∧
    ([1, 2, 3, 4, 5].sublists.all fun C =>
      !(decide (2 ≤ C.length) && (sortNatList (C.map tyid) == [1, 4]) &&
        isMaxCliqueB ex5adj [1, 2, 3, 4, 5] C)) = true := by
  refine ⟨by decide, by decide, by decide, by decide⟩

/-- C2: the hybrid driver and the plain-pivot baseline driver disagree on
`ex5`: only the hybrid map contains the spurious key `[1,4]`, so the two
ResultMaps are not identical. -/
theorem executeBK_ne_pivotBaseline :
    executeBK tyid ex5 =
      [([1, 2, 4], [(1, [1]), (2, [2]), (4, [4])]),
       ([1, 4], [(1, [1]), (4, [4])]),
       ([1, 5], [(1, [1]), (5, [5])]),
       ([3, 4], [(3, [3]), (4, [4])]),
       ([3, 5], [(3, [3]), (5, [5])])] ∧
    runBKPivotDriver tyid ex5 =
      [([1, 2, 4], [(1, [1]), (2, [2]), (4, [4])]),
       ([1, 5], [(1, [1]), (5, [5])]),
       ([3, 4], [(3, [3]), (4, [4])]),
       ([3, 5], [(3, [3]), (5, [5])])] ∧
    executeBK tyid ex5 ≠ runBKPivotDriver tyid ex5 := by
  refine ⟨by decide, by decide, by decide⟩

/-- C3: the claim (following spec §4.6) states that a `runBKRcd` branch whose
`P` is entirely of internal degree `|P| - 1` reports `R ∪ P` iff no `x ∈ X`
satisfies `|P ∩ N(x)| = |P|`.  In the call `runBKRcd(R=[1,4], P=[], X=[2])`
(reached by `executeBK` on `ex5`) the hypothesis holds vacuously and `x = 2`
has `|P ∩ N(2)| = 0 = |P|`, so the claim demands an unchanged ResultMap;
the code skips the X-scan when `P` is empty and reports `{1,4}`. -/
theorem runBKRcd_empty_P_reports_despite_blocker :
    count_intersection [] ((AdjMap.find? ex5adj 2).getD []) = List.length ([] : List Nat) ∧
    runBKRcd tyid ex5adj [1, 4] [] [2] [] = [([1, 4], [(1, [1]), (4, [4])])] := by
  refine ⟨by decide, by decide⟩

-- ---------------------------------------------------------------------------
-- C9: structural invariants of every ResultMap produced by executeBK
-- ---------------------------------------------------------------------------

/-- Inner-map invariant: every instance stored under feature type `t` has
feature type exactly `t`. -/
def GoodInner (ty : Nat → Nat) (im : InnerMap) : Prop :=
  ∀ p ∈ im, ∀ i ∈ p.2, ty i = p.1

/-- ResultMap invariant: every key has length ≥ 2 and is sorted ascending,
and its inner map satisfies `GoodInner`. -/
def GoodRM (ty : Nat → Nat) (h : ResultMap) : Prop :=
  ∀ e ∈ h, 2 ≤ e.1.length ∧ e.1.Sorted (· ≤ ·) ∧ GoodInner ty e.2

theorem foldl_preserves {α β : Type} (f : β → α → β) (Q : β → Prop)
    (hf : ∀ b a, Q b → Q (f b a)) : ∀ (l : List α) (b : β), Q b → Q (l.foldl f b)
  | [], _, hb => hb
  | a :: l, b, hb => foldl_preserves f Q hf l (f b a) (hf b a hb)

theorem mem_insertSorted {v y : Nat} : ∀ {l : List Nat}, y ∈ insertSorted v l → y ∈ l ∨ y = v := by
  intro l
  induction l with
  | nil => simp [insertSorted]
  | cons x xs ih =>
    simp only [insertSorted]
    split
    · intro hy
      rcases List.mem_cons.mp hy with h | h
      · exact Or.inl (by simp [h])
      · rcases ih h with h' | h'
        · exact Or.inl (List.mem_cons_of_mem _ h')
        · exact Or.inr h'
    · intro hy
      rcases List.mem_cons.mp hy with h | h
      · exact Or.inr h
      · exact Or.inl h

theorem insertSorted_length (v : Nat) : ∀ l : List Nat,
    (insertSorted v l).length = l.length + 1 := by
  intro l
  induction l with
  | nil => rfl
  | cons x xs ih => simp only [insertSorted]; split <;> simp [ih]

theorem insertSorted_sorted (v : Nat) : ∀ {l : List Nat},
    l.Sorted (· ≤ ·) → (insertSorted v l).Sorted (· ≤ ·) := by
  intro l
  induction l with
  | nil => intro _; simp [insertSorted]
  | cons x xs ih =>
    intro hs
    rw [List.sorted_cons] at hs
    simp only [insertSorted]
    split
    · rw [List.sorted_cons]
      refine ⟨?_, ih hs.2⟩
      intro b hb
      rcases mem_insertSorted hb with h | h
      · exact hs.1 b h
      · subst h; omega
    · rw [List.sorted_cons]
      refine ⟨?_, List.sorted_cons.mpr hs⟩
      intro b hb
      rcases List.mem_cons.mp hb with h | h
      · subst h; omega
      · have := hs.1 b h; omega

theorem sortNatList_sorted (l : List Nat) : (sortNatList l).Sorted (· ≤ ·) := by
  induction l with
  | nil => simp [sortNatList]
  | cons x xs ih => exact insertSorted_sorted x ih

theorem sortNatList_length (l : List Nat) : (sortNatList l).length = l.length := by
  induction l with
  | nil => rfl
  | cons x xs ih =>
    show (insertSorted x (sortNatList xs)).length = xs.length + 1
    rw [insertSorted_length, ih]

theorem mem_setInsert {v j : Nat} : ∀ {s : List Nat}, j ∈ setInsert v s → j ∈ s ∨ j = v := by
  intro s
  induction s with
  | nil => simp [setInsert]
  | cons x xs ih =>
    simp only [setInsert]
    split
    · intro hj
      rcases List.mem_cons.mp hj with h | h
      · exact Or.inl (by simp [h])
      · rcases ih h with h' | h'
        · exact Or.inl (List.mem_cons_of_mem _ h')
        · exact Or.inr h'
    · split
      · intro hj; exact Or.inl hj
      · intro hj
        rcases List.mem_cons.mp hj with h | h
        · exact Or.inr h
        · exact Or.inl h

theorem innerAdd_good {ty : Nat → Nat} {t i : Nat} (hti : ty i = t) :
    ∀ {m : InnerMap}, GoodInner ty m → GoodInner ty (innerAdd m t i) := by
  intro m
  induction m with
  | nil =>
    intro _ p hp j hj
    simp only [innerAdd, List.mem_singleton] at hp
    subst hp
    simp only [List.mem_singleton] at hj
    subst hj; exact hti
  | cons e rest ih =>
    intro hm
    obtain ⟨k, s⟩ := e
    have hrest : GoodInner ty rest := fun p hp => hm p (List.mem_cons_of_mem _ hp)
    simp only [innerAdd]
    split
    · intro p hp j hj
      rcases List.mem_cons.mp hp with h | h
      · subst h
        simp only [List.mem_singleton] at hj
        subst hj; exact hti
      · exact hm p h j hj
    · split
      · intro p hp j hj
        rcases List.mem_cons.mp hp with h | h
        · subst h; exact hm (k, s) (List.mem_cons_self _ _) j hj
        · exact ih hrest p h j hj
      · -- here ¬(t < k) and ¬(k < t), so k = t
        intro p hp j hj
        rcases List.mem_cons.mp hp with h | h
        · subst h
          rcases mem_setInsert hj with h' | h'
          · have hk : k = t := by omega
            have := hm (k, s) (List.mem_cons_self _ _) j h'
            simpa [hk] using this
          · subst h'; exact hti
        · exact hm p (List.mem_cons_of_mem _ h) j hj

theorem rmLookup_mem : ∀ {h : ResultMap} {c : Colocation} {m : InnerMap},
    rmLookup h c = some m → (c, m) ∈ h := by
  intro h
  induction h with
  | nil => intro c m hcm; simp [rmLookup] at hcm
  | cons e rest ih =>
    intro c m hcm
    obtain ⟨k, im⟩ := e
    simp only [rmLookup] at hcm
    split at hcm
    · rename_i hk
      subst hk
      injection hcm with hcm
      subst hcm
      exact List.mem_cons_self _ _
    · exact List.mem_cons_of_mem _ (ih hcm)

theorem rmSet_mem : ∀ {h : ResultMap} {c : Colocation} {m : InnerMap} {e},
    e ∈ rmSet h c m → e ∈ h ∨ e = (c, m) := by
  intro h
  induction h with
  | nil => intro c m e he; simp only [rmSet, List.mem_singleton] at he; exact Or.inr he
  | cons q rest ih =>
    intro c m e he
    obtain ⟨k, im⟩ := q
    simp only [rmSet] at he
    split at he
    · rcases List.mem_cons.mp he with h' | h'
      · exact Or.inr h'
      · exact Or.inl h'
    · split at he
      · rcases List.mem_cons.mp he with h' | h'
        · exact Or.inl (by simp [h'])
        · rcases ih h' with h'' | h''
          · exact Or.inl (List.mem_cons_of_mem _ h'')
          · exact Or.inr h''
      · rcases List.mem_cons.mp he with h' | h'
        · exact Or.inr h'
        · exact Or.inl (List.mem_cons_of_mem _ h')

theorem report_clique_good {ty : Nat → Nat} {R : CliqueVec} {h : ResultMap}
    (hh : GoodRM ty h) : GoodRM ty (report_clique ty R h) := by
  unfold report_clique
  split
  · exact hh
  · rename_i hlen
    intro e he
    rcases rmSet_mem he with hmem | hmem
    · exact hh e hmem
    · subst hmem
      refine ⟨?_, ?_, ?_⟩
      · show 2 ≤ (sortNatList (R.map ty)).length
        rw [sortNatList_length, List.length_map]; omega
      · exact sortNatList_sorted _
      · -- inner map: start from the looked-up inner map (good by hh) and fold
        apply foldl_preserves (fun m i => innerAdd m (ty i) i) (GoodInner ty)
        · intro m i hi
          exact innerAdd_good rfl hi
        · rcases hl : rmLookup h (sortNatList (R.map ty)) with _ | im
          · simp only [Option.getD_none]
            intro p hp; simp at hp
          · simp only [Option.getD_some]
            exact (hh _ (rmLookup_mem hl)).2.2

theorem bkPivot_good {ty : Nat → Nat} {adj : AdjMap} :
    ∀ (fuel : Nat) (R P X : CliqueVec) (h : ResultMap),
    GoodRM ty h → GoodRM ty (bkPivot ty adj fuel R P X h) := by
  intro fuel
  induction fuel with
  | zero => intro R P X h hh; exact hh
  | succ fuel ih =>
    intro R P X h hh
    rw [bkPivot]
    split
    · exact report_clique_good hh
    · split
      · exact hh
      · refine (foldl_preserves _
          (fun st : List Nat × List Nat × ResultMap => GoodRM ty st.2.2) ?_ _ _ hh)
        intro st v hst
        exact ih _ _ _ _ hst

theorem bkRcd_good {ty : Nat → Nat} {adj : AdjMap} :
    ∀ (fuel : Nat) (R P X : CliqueVec) (h : ResultMap),
    GoodRM ty h → GoodRM ty (bkRcd ty adj fuel R P X h) := by
  intro fuel
  induction fuel with
  | zero => intro R P X h hh; exact hh
  | succ fuel ih =>
    intro R P X h hh
    simp only [bkRcd]
    split
    · exact report_clique_good hh
    · split
      · split
        · exact report_clique_good hh
        · split
          · exact report_clique_good hh
          · exact hh
      · split
        · exact hh
        · split
          · exact ih _ _ _ _ hh
          · exact ih _ _ _ _ (ih _ _ _ _ hh)

/-- One driver step (per-vertex subproblem + hybrid dispatch) preserves the
ResultMap invariant. -/
theorem executeBKStep_good {ty : Nat → Nat} {adj : AdjMap} {ordering : List Nat}
    (h : ResultMap) (iv : Nat × Nat) (hh : GoodRM ty h) :
    GoodRM ty (executeBKStep ty adj ordering h iv) := by
  obtain ⟨i, v⟩ := iv
  simp only [executeBKStep, runBKRcd, runBKPivot]
  split
  · exact hh
  · split
    · exact bkRcd_good _ _ _ _ _ hh
    · exact bkPivot_good _ _ _ _ _ hh

/-- C9: every entry of the ResultMap returned by `executeBK` has a key of
length ≥ 2 sorted ascending, and every instance stored under a feature type
`t` in its inner map has feature type exactly `t` — for arbitrary typing and
arbitrary neighbour-set input. -/
theorem executeBK_result_invariants (ty : Nat → Nat) (neighborSets : List (Nat × List Nat)) :
    GoodRM ty (executeBK ty neighborSets) := by
  unfold executeBK
  apply foldl_preserves _ (GoodRM ty)
  · intro h iv hh
    exact executeBKStep_good h iv hh
  · intro e he; simp at he

/-- Witness for C9: the invariant instantiated on a concrete two-vertex graph,
whose ResultMap is `[([1,2], [(1,[1]),(2,[2])])]`. -/
theorem executeBK_result_invariants_witness :
    GoodRM tyid (executeBK tyid [(1, [2]), (2, [1])]) :=
  executeBK_result_invariants tyid [(1, [2]), (2, [1])]

-- ---------------------------------------------------------------------------
-- C8: candidate extraction
-- ---------------------------------------------------------------------------

theorem colLt_irrefl : ∀ l : List Nat, colLt l l = false := by
  intro l
  induction l with
  | nil => rfl
  | cons a as ih => simp [colLt, ih]

/-- C8: the candidate queue built by `extractInitialCandidates` contains
exactly the ResultMap's keys, each exactly once (the `std::map` invariant is
that keys are pairwise strictly increasing), so its length equals the number
of distinct keys; popping such a queue to exhaustion therefore yields every
key exactly once, in the order fixed by the injected comparator. -/
theorem extractInitialCandidates_spec (h : ResultMap)
    (hkeys : h.Pairwise fun a b => colLt a.1 b.1 = true) :
    (extractInitialCandidates h).length = h.length ∧
    (∀ K, K ∈ extractInitialCandidates h ↔ ∃ im, (K, im) ∈ h) ∧
    (extractInitialCandidates h).Nodup := by
  refine ⟨List.length_map _ _, ?_, ?_⟩
  · intro K
    constructor
    · intro hK
      rcases List.mem_map.mp hK with ⟨⟨K', im⟩, he, rfl⟩
      exact ⟨im, he⟩
    · rintro ⟨im, him⟩
      exact List.mem_map.mpr ⟨(K, im), him, rfl⟩
  · refine List.pairwise_map.mpr (hkeys.imp ?_)
    intro a b hab heq
    rw [heq] at hab
    rw [colLt_irrefl] at hab
    exact Bool.false_ne_true hab

/-- Witness for C8 at a concrete two-entry ResultMap. -/
theorem extractInitialCandidates_spec_witness :
    (extractInitialCandidates
      [([1, 2], [(1, [1]), (2, [2])]), ([1, 2, 3], [(3, [3])])]).length = 2 ∧
    (extractInitialCandidates
      [([1, 2], [(1, [1]), (2, [2])]), ([1, 2, 3], [(3, [3])])]).Nodup := by
  have hp : ([([1, 2], [(1, [1]), (2, [2])]), ([1, 2, 3], [(3, [3])])] :
      ResultMap).Pairwise fun a b => colLt a.1 b.1 = true := by decide
  exact ⟨(extractInitialCandidates_spec _ hp).1,
    (extractInitialCandidates_spec _ hp).2.2⟩

-- ---------------------------------------------------------------------------
-- C7: dispersion on degenerate inputs
-- ---------------------------------------------------------------------------

/-- C7: on a feature-count map with 0 or 1 distinct feature types,
`calculateDispersion` returns exactly 0 (both guard branches return before
the `2/(m·(m−1))` factor is ever formed, so no division by zero occurs). -/
theorem calculateDispersion_degenerate (fc : List (Nat × Int)) (hm : fc.length ≤ 1) :
    calculateDispersion fc = 0 := by
  match fc, hm with
  | [], _ => simp [calculateDispersion]
  | [p], _ => simp [calculateDispersion]

/-- Witness for C7: the empty count map. -/
theorem calculateDispersion_degenerate_witness :
    List.length ([] : List (Nat × Int)) ≤ 1 ∧ calculateDispersion [] = 0 :=
  ⟨by decide, calculateDispersion_degenerate [] (by decide)⟩

-- ---------------------------------------------------------------------------
-- C4: the dispersion formula
-- ---------------------------------------------------------------------------

theorem insertSortedInt_perm (v : Int) : ∀ l : List Int, (insertSortedInt v l).Perm (v :: l) := by
  intro l
  induction l with
  | nil => exact List.Perm.refl _
  | cons x xs ih =>
    simp only [insertSortedInt]
    split
    · exact (ih.cons x).trans (List.Perm.swap v x xs)
    · exact List.Perm.refl _

theorem sortIntList_perm (l : List Int) : (sortIntList l).Perm l := by
  induction l with
  | nil => exact List.Perm.refl _
  | cons x xs ih => exact (insertSortedInt_perm x (sortIntList xs)).trans (ih.cons x)

theorem sumSqDiff_perm : ∀ {l l' : List ℝ}, l.Perm l' → sumSqDiff l = sumSqDiff l' := by
  intro l l' hp
  induction hp with
  | nil => rfl
  | cons a h ih =>
    simp only [sumSqDiff]
    rw [ih, (h.map fun b => (b - a) * (b - a)).sum_eq]
  | swap a b l =>
    simp only [sumSqDiff, List.map_cons, List.sum_cons]
    ring
  | trans h1 h2 ih1 ih2 => exact ih1.trans ih2

/-- C4: on a feature-count map with at least two (distinct) feature types and
positive counts, `calculateDispersion` returns
`sqrt (2/(m·(m−1)) · Σ_{i<j} (ln cᵢ − ln cⱼ)²)` — the pairwise sum taken over
the counts in input order (the sum of squared pairwise differences is
invariant under the sorting the code performs). -/
theorem calculateDispersion_formula (fc : List (Nat × Int)) (hm : 2 ≤ fc.length)
    (_hpos : ∀ p ∈ fc, 0 < p.2) :
    calculateDispersion fc =
      Real.sqrt (2 / ((fc.length : ℝ) * ((fc.length : ℝ) - 1)) *
        sumSqDiff (fc.map fun p => Real.log (p.2 : ℝ))) := by
  have h1 : fc ≠ [] := by intro hfc; rw [hfc] at hm; simp at hm
  have h2 : ¬ fc.length = 1 := by omega
  simp only [calculateDispersion, if_neg h1, if_neg h2]
  have hlen : ((sortIntList (fc.map fun p => p.2)).map fun f : Int => Real.log (f : ℝ)).length
      = fc.length := by
    rw [List.length_map, (sortIntList_perm _).length_eq, List.length_map]
  have hsum : sumSqDiff ((sortIntList (fc.map fun p => p.2)).map fun f : Int => Real.log (f : ℝ))
      = sumSqDiff (fc.map fun p => Real.log (p.2 : ℝ)) := by
    apply sumSqDiff_perm
    have hperm := (sortIntList_perm (fc.map fun p => p.2)).map fun f : Int => Real.log (f : ℝ)
    refine hperm.trans ?_
    rw [List.map_map]
    exact List.Perm.refl _
  rw [hlen, hsum]

/-- Witness for C4: the spec's worked example `{A:1, B:10, C:100}` gives
`sqrt((2/6)·[(ln 10)² + (ln 100)² + (ln 100 − ln 10)²])`. -/
theorem calculateDispersion_formula_witness :
    calculateDispersion [(0, 1), (1, 10), (2, 100)] =
      Real.sqrt (2 / 6 *
        (Real.log 10 ^ 2 + Real.log 100 ^ 2 + (Real.log 100 - Real.log 10) ^ 2)) := by
  have h := calculateDispersion_formula [(0, 1), (1, 10), (2, 100)] (by norm_num)
    (by intro p hp
        simp only [List.mem_cons, List.not_mem_nil, or_false] at hp
        rcases hp with rfl | rfl | rfl <;> norm_num)
  rw [h]
  have hl : ([(0, 1), (1, 10), (2, 100)] : List (Nat × Int)).length = 3 := rfl
  rw [hl]
  congr 1
  simp only [List.map_cons, List.map_nil, sumSqDiff, List.sum_cons, List.sum_nil]
  push_cast
  rw [Real.log_one]
  ring

-- ---------------------------------------------------------------------------
-- C5 / C6 / C10: rare intensity
-- ---------------------------------------------------------------------------

theorem lookupFC_mem : ∀ {fc : List (Nat × Int)} {f : Nat} {v : Int},
    lookupFC fc f = some v → (f, v) ∈ fc := by
  intro fc
  induction fc with
  | nil => intro f v hv; simp [lookupFC] at hv
  | cons p rest ih =>
    intro f v hv
    obtain ⟨k, w⟩ := p
    simp only [lookupFC] at hv
    split at hv
    · rename_i hk
      subst hk
      injection hv with hv
      subst hv
      exact List.mem_cons_self _ _
    · exact List.mem_cons_of_mem _ (ih hv)

theorem minStep_none {fc : List (Nat × Int)} {f : Nat} (hl : lookupFC fc f = none)
    (acc : Int) : minStep fc acc f = acc := by
  simp [minStep, hl]

theorem minStep_some {fc : List (Nat × Int)} {f : Nat} {v : Int}
    (hl : lookupFC fc f = some v) (acc : Int) :
    minStep fc acc f = if acc = -1 ∨ v < acc then v else acc := by
  simp [minStep, hl]

/-- Once the accumulator holds a positive value, the `minCount` fold computes
a positive lower bound of all counts seen, never exceeding the accumulator,
and coming either from the accumulator or from some looked-up count. -/
theorem minFold_pos {fc : List (Nat × Int)} :
    ∀ (c : List Nat) (acc : Int), 0 < acc →
    (∀ f ∈ c, ∀ v : Int, lookupFC fc f = some v → 0 < v) →
    0 < c.foldl (minStep fc) acc ∧ c.foldl (minStep fc) acc ≤ acc ∧
    (∀ f ∈ c, ∀ v : Int, lookupFC fc f = some v → c.foldl (minStep fc) acc ≤ v) ∧
    (c.foldl (minStep fc) acc = acc ∨
      ∃ f ∈ c, lookupFC fc f = some (c.foldl (minStep fc) acc)) := by
  intro c
  induction c with
  | nil =>
    intro acc hacc _
    exact ⟨hacc, le_refl _, by intro f hf; simp at hf, Or.inl rfl⟩
  | cons f c' ih =>
    intro acc hacc hpos
    have hpos' : ∀ g ∈ c', ∀ v : Int, lookupFC fc g = some v → 0 < v :=
      fun g hg => hpos g (List.mem_cons_of_mem _ hg)
    rcases hl : lookupFC fc f with _ | v
    · rw [List.foldl_cons, minStep_none hl]
      obtain ⟨h1, h2, h3, h4⟩ := ih acc hacc hpos'
      refine ⟨h1, h2, ?_, ?_⟩
      · intro g hg v hv
        rcases List.mem_cons.mp hg with rfl | hg'
        · rw [hl] at hv; exact absurd hv (by simp)
        · exact h3 g hg' v hv
      · rcases h4 with h4 | ⟨g, hg, hgl⟩
        · exact Or.inl h4
        · exact Or.inr ⟨g, List.mem_cons_of_mem _ hg, hgl⟩
    · have hv : 0 < v := hpos f (List.mem_cons_self _ _) v hl
      rw [List.foldl_cons, minStep_some hl]
      have hne : ¬ acc = -1 := by omega
      by_cases hlt : v < acc
      · rw [if_pos (Or.inr hlt)]
        obtain ⟨h1, h2, h3, h4⟩ := ih v hv hpos'
        refine ⟨h1, le_trans h2 (le_of_lt hlt), ?_, ?_⟩
        · intro g hg w hw
          rcases List.mem_cons.mp hg with rfl | hg'
          · rw [hl] at hw; injection hw with hw; subst hw; exact h2
          · exact h3 g hg' w hw
        · rcases h4 with h4 | ⟨g, hg, hgl⟩
          · exact Or.inr ⟨f, List.mem_cons_self _ _, by rw [hl, h4]⟩
          · exact Or.inr ⟨g, List.mem_cons_of_mem _ hg, hgl⟩
      · rw [if_neg (by tauto)]
        obtain ⟨h1, h2, h3, h4⟩ := ih acc hacc hpos'
        refine ⟨h1, h2, ?_, ?_⟩
        · intro g hg w hw
          rcases List.mem_cons.mp hg with rfl | hg'
          · rw [hl] at hw; injection hw with hw; subst hw; omega
          · exact h3 g hg' w hw
        · rcases h4 with h4 | ⟨g, hg, hgl⟩
          · exact Or.inl h4
          · exact Or.inr ⟨g, List.mem_cons_of_mem _ hg, hgl⟩

theorem minFold_all_none {fc : List (Nat × Int)} :
    ∀ c : List Nat, (∀ f ∈ c, lookupFC fc f = none) →
    c.foldl (minStep fc) (-1) = -1 := by
  intro c
  induction c with
  | nil => intro _; rfl
  | cons f c' ih =>
    intro hall
    rw [List.foldl_cons, minStep_none (hall f (List.mem_cons_self _ _))]
    exact ih fun g hg => hall g (List.mem_cons_of_mem _ hg)

/-- When some feature of the colocation is present in the count map and all
counts looked up along the way are positive, the computed `minCount` is the
least present count (and is itself a present count). -/
theorem minFold_found {fc : List (Nat × Int)} :
    ∀ c : List Nat,
    (∀ f ∈ c, ∀ v : Int, lookupFC fc f = some v → 0 < v) →
    (∃ f ∈ c, (lookupFC fc f).isSome) →
    0 < minCountOf fc c ∧
    (∀ f ∈ c, ∀ v : Int, lookupFC fc f = some v → minCountOf fc c ≤ v) ∧
    (∃ f ∈ c, lookupFC fc f = some (minCountOf fc c)) := by
  intro c
  induction c with
  | nil => intro _ hex; simp at hex
  | cons f c' ih =>
    intro hpos hex
    have hpos' : ∀ g ∈ c', ∀ v : Int, lookupFC fc g = some v → 0 < v :=
      fun g hg => hpos g (List.mem_cons_of_mem _ hg)
    rcases hl : lookupFC fc f with _ | v
    · have hex' : ∃ g ∈ c', (lookupFC fc g).isSome := by
        rcases hex with ⟨g, hg, hgs⟩
        rcases List.mem_cons.mp hg with rfl | hg'
        · rw [hl] at hgs; simp at hgs
        · exact ⟨g, hg', hgs⟩
      have hstep : minCountOf fc (f :: c') = minCountOf fc c' := by
        unfold minCountOf
        rw [List.foldl_cons, minStep_none hl]
      obtain ⟨h1, h2, h3⟩ := ih hpos' hex'
      rw [hstep]
      refine ⟨h1, ?_, ?_⟩
      · intro g hg w hw
        rcases List.mem_cons.mp hg with rfl | hg'
        · rw [hl] at hw; exact absurd hw (by simp)
        · exact h2 g hg' w hw
      · rcases h3 with ⟨g, hg, hgl⟩
        exact ⟨g, List.mem_cons_of_mem _ hg, hgl⟩
    · have hv : 0 < v := hpos f (List.mem_cons_self _ _) v hl
      have hstep : minCountOf fc (f :: c') = c'.foldl (minStep fc) v := by
        unfold minCountOf
        rw [List.foldl_cons, minStep_some hl, if_pos (Or.inl rfl)]
      obtain ⟨h1, h2, h3, h4⟩ := minFold_pos c' v hv hpos'
      rw [hstep]
      refine ⟨h1, ?_, ?_⟩
      · intro g hg w hw
        rcases List.mem_cons.mp hg with rfl | hg'
        · rw [hl] at hw; injection hw with hw; subst hw; exact h2
        · exact h3 g hg' w hw
      · rcases h4 with h4 | ⟨g, hg, hgl⟩
        · exact ⟨f, List.mem_cons_self _ _, by rw [hl, h4]⟩
        · exact ⟨g, List.mem_cons_of_mem _ hg, hgl⟩

theorem lookupRI_riInsert_self (f : Nat) (v : ℝ) :
    ∀ m : List (Nat × ℝ), lookupRI (riInsert m f v) f = some v := by
  intro m
  induction m with
  | nil => simp [riInsert, lookupRI]
  | cons p rest ih =>
    obtain ⟨k, w⟩ := p
    simp only [riInsert]
    split
    · simp [lookupRI]
    · split
      · rename_i hkf
        have hk : ¬ k = f := by omega
        simp only [lookupRI, if_neg hk]
        exact ih
      · simp [lookupRI]

theorem lookupRI_riInsert_other {f g : Nat} (hgf : g ≠ f) (v : ℝ) :
    ∀ m : List (Nat × ℝ), lookupRI (riInsert m f v) g = lookupRI m g := by
  have hfg : ¬ f = g := fun h => hgf h.symm
  intro m
  induction m with
  | nil => simp [riInsert, lookupRI, hfg]
  | cons p rest ih =>
    obtain ⟨k, w⟩ := p
    simp only [riInsert]
    split
    · simp only [lookupRI, if_neg hfg]
    · split
      · simp only [lookupRI]
        split
        · rfl
        · exact ih
      · rename_i h1 h2
        have hk : k = f := by omega
        subst hk
        simp only [lookupRI, if_neg hfg]

theorem riStep_skip {fc : List (Nat × Int)} {logMin sigmaSq2 : ℝ} {f : Nat}
    {m : List (Nat × ℝ)}
    (h : lookupFC fc f = none ∨ ∃ v : Int, lookupFC fc f = some v ∧ ¬ 0 < v) :
    riStep fc logMin sigmaSq2 m f = m := by
  rcases h with h | ⟨v, hv, hnv⟩
  · simp [riStep, h]
  · simp [riStep, hv, hnv]

theorem riStep_insert {fc : List (Nat × Int)} {logMin sigmaSq2 : ℝ} {f : Nat} {cnt : Int}
    (hl : lookupFC fc f = some cnt) (hpos : 0 < cnt) (m : List (Nat × ℝ)) :
    riStep fc logMin sigmaSq2 m f =
      riInsert m f (Real.exp (-((Real.log (cnt : ℝ) - logMin) *
        (Real.log (cnt : ℝ) - logMin)) / sigmaSq2)) := by
  simp [riStep, hl, hpos]

theorem riFold_not_mem {fc : List (Nat × Int)} {logMin sigmaSq2 : ℝ} {f : Nat} :
    ∀ (c : List Nat) (m₀ : List (Nat × ℝ)), f ∉ c →
    lookupRI (c.foldl (riStep fc logMin sigmaSq2) m₀) f = lookupRI m₀ f := by
  intro c
  induction c with
  | nil => intro m₀ _; rfl
  | cons g c' ih =>
    intro m₀ hf
    have hfg : f ≠ g := fun h => hf (h ▸ List.mem_cons_self _ _)
    have hfc' : f ∉ c' := fun h => hf (List.mem_cons_of_mem _ h)
    rw [List.foldl_cons, ih _ hfc']
    rcases hl : lookupFC fc g with _ | v
    · rw [riStep_skip (Or.inl hl)]
    · by_cases hv : 0 < v
      · rw [riStep_insert hl hv, lookupRI_riInsert_other hfg]
      · rw [riStep_skip (Or.inr ⟨v, hl, hv⟩)]

theorem riFold_lookup {fc : List (Nat × Int)} {logMin sigmaSq2 : ℝ} {f : Nat} {cnt : Int}
    (hl : lookupFC fc f = some cnt) (hpos : 0 < cnt) :
    ∀ (c : List Nat) (m₀ : List (Nat × ℝ)), f ∈ c →
    lookupRI (c.foldl (riStep fc logMin sigmaSq2) m₀) f =
      some (Real.exp (-((Real.log (cnt : ℝ) - logMin) *
        (Real.log (cnt : ℝ) - logMin)) / sigmaSq2)) := by
  intro c
  induction c with
  | nil => intro m₀ hf; simp at hf
  | cons g c' ih =>
    intro m₀ hf
    by_cases hfc' : f ∈ c'
    · rw [List.foldl_cons]
      exact ih _ hfc'
    · have hfg : f = g := by
        rcases List.mem_cons.mp hf with h | h
        · exact h
        · exact absurd h hfc'
      subst hfg
      rw [List.foldl_cons, riFold_not_mem c' _ hfc', riStep_insert hl hpos,
        lookupRI_riInsert_self]

/-- C5: every feature type of the colocation whose count equals the (strictly
positive) minimum present count is assigned rare intensity exactly 1
(`exp(−0²/denominator) = 1`). -/
theorem calcRareIntensity_min_one (c : Colocation) (fc : List (Nat × Int)) (delta : ℝ)
    (m : Int)
    (hmem : ∃ f ∈ c, lookupFC fc f = some m)
    (hmin : ∀ f ∈ c, ∀ v : Int, lookupFC fc f = some v → m ≤ v)
    (hmpos : 0 < m) :
    ∀ f ∈ c, lookupFC fc f = some m →
      lookupRI (calcRareIntensity c fc delta) f = some 1 := by
  intro f hf hlf
  have hpos : ∀ g ∈ c, ∀ v : Int, lookupFC fc g = some v → 0 < v :=
    fun g hg v hv => lt_of_lt_of_le hmpos (hmin g hg v hv)
  have hex : ∃ g ∈ c, (lookupFC fc g).isSome := by
    rcases hmem with ⟨g, hg, hgl⟩
    exact ⟨g, hg, by rw [hgl]; rfl⟩
  obtain ⟨hpos', hle, g, hg, hprov⟩ := minFold_found c hpos hex
  have hmeq : minCountOf fc c = m := by
    refine le_antisymm ?_ (hmin g hg _ hprov)
    rcases hmem with ⟨g', hg', hgl'⟩
    exact hle g' hg' m hgl'
  have hc : c ≠ [] := by
    rintro rfl
    rcases hmem with ⟨g', hg', -⟩
    simp at hg'
  simp only [calcRareIntensity, if_neg hc, hmeq, if_neg (by omega : ¬ m ≤ 0)]
  rw [riFold_lookup hlf hmpos c [] hf]
  simp

/-- Witness for C5: the spec's example — colocation `[A,B]`, counts
`{A:5, B:5}`, delta = 1 gives RI(A) = RI(B) = 1. -/
theorem calcRareIntensity_min_one_witness :
    lookupRI (calcRareIntensity [0, 1] [(0, 5), (1, 5)] 1) 0 = some 1 ∧
    lookupRI (calcRareIntensity [0, 1] [(0, 5), (1, 5)] 1) 1 = some 1 := by
  have hmem : ∃ f ∈ [0, 1], lookupFC [(0, 5), (1, 5)] f = some 5 :=
    ⟨0, by decide, by decide⟩
  have hmin : ∀ f ∈ [0, 1], ∀ v : Int, lookupFC [(0, 5), (1, 5)] f = some v → 5 ≤ v := by
    intro f hf v hv
    rcases List.mem_cons.mp hf with rfl | hf'
    · simp [lookupFC] at hv; omega
    · rcases List.mem_cons.mp hf' with rfl | hf''
      · simp [lookupFC] at hv; omega
      · simp at hf''
  exact ⟨calcRareIntensity_min_one [0, 1] [(0, 5), (1, 5)] 1 5 hmem hmin (by decide)
      0 (by decide) (by decide),
    calcRareIntensity_min_one [0, 1] [(0, 5), (1, 5)] 1 5 hmem hmin (by decide)
      1 (by decide) (by decide)⟩

theorem riInsert_ne_nil (m : List (Nat × ℝ)) (f : Nat) (v : ℝ) : riInsert m f v ≠ [] := by
  cases m with
  | nil => simp [riInsert]
  | cons p rest =>
    obtain ⟨k, w⟩ := p
    simp only [riInsert]
    split
    · simp
    · split
      · simp
      · simp

theorem riFold_stay_ne_nil {fc : List (Nat × Int)} {logMin sigmaSq2 : ℝ} :
    ∀ (c : List Nat) (m₀ : List (Nat × ℝ)), m₀ ≠ [] →
    c.foldl (riStep fc logMin sigmaSq2) m₀ ≠ [] := by
  intro c
  induction c with
  | nil => intro m₀ h; exact h
  | cons g c' ih =>
    intro m₀ h
    rw [List.foldl_cons]
    apply ih
    rcases hl : lookupFC fc g with _ | v
    · rw [riStep_skip (Or.inl hl)]; exact h
    · by_cases hv : 0 < v
      · rw [riStep_insert hl hv]; exact riInsert_ne_nil _ _ _
      · rw [riStep_skip (Or.inr ⟨v, hl, hv⟩)]; exact h

theorem riFold_ne_nil {fc : List (Nat × Int)} {logMin sigmaSq2 : ℝ} :
    ∀ (c : List Nat) (m₀ : List (Nat × ℝ)),
    (∃ f ∈ c, ∃ v : Int, lookupFC fc f = some v ∧ 0 < v) →
    c.foldl (riStep fc logMin sigmaSq2) m₀ ≠ [] := by
  intro c
  induction c with
  | nil => intro m₀ hex; simp at hex
  | cons g c' ih =>
    intro m₀ hex
    rw [List.foldl_cons]
    by_cases hg : ∃ v : Int, lookupFC fc g = some v ∧ 0 < v
    · obtain ⟨v, hl, hv⟩ := hg
      apply riFold_stay_ne_nil
      rw [riStep_insert hl hv]
      exact riInsert_ne_nil _ _ _
    · apply ih
      rcases hex with ⟨f, hf, v, hl, hv⟩
      rcases List.mem_cons.mp hf with rfl | hf'
      · exact absurd ⟨v, hl, hv⟩ hg
      · exact ⟨f, hf', v, hl, hv⟩

/-- C6 as amended: restricted to count maps whose counts are all strictly
positive (as `countFeatures` produces), `calcRareIntensity` returns the empty
mapping iff no feature type of the colocation is present in the count map (in
particular iff the computed minCount ≤ 0, covering the empty colocation); a
zero delta is handled by flooring the denominator `2·delta²` to `1e-9`, never
by signalling an error. -/
theorem calcRareIntensity_empty_iff (c : Colocation) (fc : List (Nat × Int)) (delta : ℝ)
    (hpos : ∀ p ∈ fc, 0 < p.2) :
    calcRareIntensity c fc delta = [] ↔ ∀ f ∈ c, lookupFC fc f = none := by
  by_cases hc : c = []
  · subst hc
    simp [calcRareIntensity]
  · have hposc : ∀ f ∈ c, ∀ v : Int, lookupFC fc f = some v → 0 < v :=
      fun f _ v hv => hpos (f, v) (lookupFC_mem hv)
    by_cases hex : ∃ f ∈ c, (lookupFC fc f).isSome
    · obtain ⟨hpos', hle, g, hg, hprov⟩ := minFold_found c hposc hex
      apply iff_of_false
      · simp only [calcRareIntensity, if_neg hc,
          if_neg (by omega : ¬ minCountOf fc c ≤ 0)]
        apply riFold_ne_nil
        exact ⟨g, hg, minCountOf fc c, hprov, hpos'⟩
      · intro hall
        rcases hex with ⟨f, hf, hsf⟩
        rw [hall f hf] at hsf
        simp at hsf
    · have hall : ∀ f ∈ c, lookupFC fc f = none := by
        intro f hf
        rcases hopt : lookupFC fc f with _ | v
        · rfl
        · exact absurd ⟨f, hf, by rw [hopt]; rfl⟩ hex
      have hmin : minCountOf fc c = -1 := minFold_all_none c hall
      apply iff_of_true
      · simp [calcRareIntensity, if_neg hc, hmin]
      · exact hall

/-- C6 fails as stated: with counts `{0:5, 1:0}` (feature 1 has a zero count)
and colocation `[0, 1]`, the computed minCount is 0, so `calcRareIntensity`
returns the empty mapping even though feature 0 of the colocation is present
with a strictly positive count — contradicting "returns an empty mapping iff
no feature type of the colocation is present with a strictly positive count"
(equally, the claimed equivalence with "minCount ≤ 0 or the colocation is
empty" fails here, since that side is true while the other is false). -/
theorem calcRareIntensity_zero_count_counterexample :
    calcRareIntensity [0, 1] [(0, 5), (1, 0)] 1 = [] ∧
    lookupFC [(0, 5), (1, 0)] 0 = some 5 ∧ (0 : Int) < 5 ∧ (0 : Nat) ∈ [0, 1] := by
  refine ⟨rfl, by decide, by decide, by decide⟩

/-- Witness for the amended C6: a colocation over an empty count map yields
the empty mapping. -/
theorem calcRareIntensity_empty_iff_witness :
    calcRareIntensity [0] [] 1 = [] :=
  (calcRareIntensity_empty_iff [0] [] 1 (by simp)).mpr (by intro f hf; rfl)

theorem riInsert_mem : ∀ {m : List (Nat × ℝ)} {f : Nat} {v : ℝ} {p : Nat × ℝ},
    p ∈ riInsert m f v → p ∈ m ∨ p = (f, v) := by
  intro m
  induction m with
  | nil =>
    intro f v p hp
    simp only [riInsert, List.mem_singleton] at hp
    exact Or.inr hp
  | cons q rest ih =>
    intro f v p hp
    obtain ⟨k, w⟩ := q
    simp only [riInsert] at hp
    split at hp
    · rcases List.mem_cons.mp hp with h | h
      · exact Or.inr h
      · exact Or.inl h
    · split at hp
      · rcases List.mem_cons.mp hp with h | h
        · exact Or.inl (by simp [h])
        · rcases ih h with h' | h'
          · exact Or.inl (List.mem_cons_of_mem _ h')
          · exact Or.inr h'
      · rcases List.mem_cons.mp hp with h | h
        · exact Or.inr h
        · exact Or.inl (List.mem_cons_of_mem _ h)

theorem riFold_range {fc : List (Nat × Int)} {logMin sigmaSq2 : ℝ} (hs : 0 < sigmaSq2) :
    ∀ (c : List Nat) (m₀ : List (Nat × ℝ)),
    (∀ p ∈ m₀, 0 < p.2 ∧ p.2 ≤ 1) →
    ∀ p ∈ c.foldl (riStep fc logMin sigmaSq2) m₀, 0 < p.2 ∧ p.2 ≤ 1 := by
  intro c m₀ h₀
  refine foldl_preserves _ (fun m : List (Nat × ℝ) => ∀ p ∈ m, 0 < p.2 ∧ p.2 ≤ 1)
    ?_ c m₀ h₀
  intro m f hm
  rcases hl : lookupFC fc f with _ | v
  · rw [riStep_skip (Or.inl hl)]; exact hm
  · by_cases hv : 0 < v
    · rw [riStep_insert hl hv]
      intro p hp
      rcases riInsert_mem hp with h | h
      · exact hm p h
      · subst h
        refine ⟨Real.exp_pos _, ?_⟩
        show Real.exp _ ≤ 1
        have hx : -((Real.log (v : ℝ) - logMin) * (Real.log (v : ℝ) - logMin))
            / sigmaSq2 ≤ 0 :=
          div_nonpos_iff.mpr (Or.inr ⟨neg_nonpos.mpr (mul_self_nonneg _), hs.le⟩)
        calc Real.exp _ ≤ Real.exp 0 := Real.exp_le_exp.mpr hx
          _ = 1 := Real.exp_zero
    · rw [riStep_skip (Or.inr ⟨v, hl, hv⟩)]; exact hm

/-- C10: every rare-intensity value produced by `calcRareIntensity` lies in
`(0, 1]`: each stored value is `exp` of a nonpositive quantity (a negated
square divided by a strictly positive denominator — `2·delta²` when nonzero,
the `1e-9` floor otherwise). -/
theorem calcRareIntensity_values (c : Colocation) (fc : List (Nat × Int)) (delta : ℝ)
    (f : Nat) (v : ℝ) (hmem : (f, v) ∈ calcRareIntensity c fc delta) :
    0 < v ∧ v ≤ 1 := by
  by_cases hc : c = []
  · subst hc; simp [calcRareIntensity] at hmem
  · simp only [calcRareIntensity, if_neg hc] at hmem
    split at hmem
    · simp at hmem
    · have hs : 0 < (if (2 * delta * delta : ℝ) = 0 then (1e-9 : ℝ)
          else 2 * delta * delta) := by
        split
        · norm_num
        · rename_i hne
          have h2 : 0 ≤ 2 * delta * delta := by nlinarith [mul_self_nonneg delta]
          exact lt_of_le_of_ne h2 (Ne.symm hne)
      exact riFold_range hs c [] (by intro p hp; simp at hp) (f, v) hmem

theorem lookupRI_mem : ∀ {m : List (Nat × ℝ)} {f : Nat} {v : ℝ},
    lookupRI m f = some v → (f, v) ∈ m := by
  intro m
  induction m with
  | nil => intro f v hv; simp [lookupRI] at hv
  | cons p rest ih =>
    intro f v hv
    obtain ⟨k, w⟩ := p
    simp only [lookupRI] at hv
    split at hv
    · rename_i hk
      subst hk
      injection hv with hv
      subst hv
      exact List.mem_cons_self _ _
    · exact List.mem_cons_of_mem _ (ih hv)

/-- Witness for C10 at colocation `[0]`, counts `{0:1}`, delta 1. -/
theorem calcRareIntensity_values_witness :
    0 < Real.exp (-((Real.log ((1 : Int) : ℝ) - Real.log ((1 : Int) : ℝ)) *
        (Real.log ((1 : Int) : ℝ) - Real.log ((1 : Int) : ℝ))) / (2 * 1 * 1)) ∧
    Real.exp (-((Real.log ((1 : Int) : ℝ) - Real.log ((1 : Int) : ℝ)) *
        (Real.log ((1 : Int) : ℝ) - Real.log ((1 : Int) : ℝ))) / (2 * 1 * 1)) ≤ 1 := by
  have hmc : minCountOf [(0, 1)] [0] = 1 := rfl
  have hl : lookupRI (calcRareIntensity [0] [(0, 1)] 1) 0 =
      some (Real.exp (-((Real.log ((1 : Int) : ℝ) - Real.log ((1 : Int) : ℝ)) *
        (Real.log ((1 : Int) : ℝ) - Real.log ((1 : Int) : ℝ))) / (2 * 1 * 1))) := by
    simp only [calcRareIntensity, hmc]
    rw [if_neg (by decide : ¬ ([0] : List Nat) = []),
      if_neg (by decide : ¬ (1 : Int) ≤ 0),
      if_neg (by norm_num : ¬ ((2 : ℝ) * 1 * 1 = 0))]
    exact riFold_lookup (by decide) (by decide) [0] [] (by decide)
  exact calcRareIntensity_values [0] [(0, 1)] 1 0 _ (lookupRI_mem hl)
